import Mathlib

/-!
# Verification of the path-group middleware classifier

Shallow embedding of `add_path_group_header.go` (the segment classifier
`identifyIDType` and the path normalizer `extractPathGroup`) and of the
legacy wildcard variant in `add-path-header/add_path_header.go`.

Paths and segments are modelled as `List Char` (Go iterates runes).  The
compiled regular expressions become decidable Boolean matchers, and the
recursive classifier is defined with an explicit fuel argument (one unit of
fuel per character suffices, proved below), so every definition is
executable.
-/

namespace PathGroup

/-! ## Character classes (ASCII, as used by the Go regexps) -/

/-- The `\d` : ASCII digit. -/
def isDigitC (c : Char) : Bool := 48 ≤ c.toNat && c.toNat ≤ 57

/-- The `[A-Z]`. -/
def isUpperC (c : Char) : Bool := 65 ≤ c.toNat && c.toNat ≤ 90

/-- The `[a-z]`. -/
def isLowerC (c : Char) : Bool := 97 ≤ c.toNat && c.toNat ≤ 122

/-- The `[a-zA-Z0-9]` (the `prefixPattern` charset). -/
def isAlnumC (c : Char) : Bool := isDigitC c || isUpperC c || isLowerC c

/-- The `[0-9a-fA-F]` : hexadecimal digit. -/
def isHexC (c : Char) : Bool :=
  isDigitC c || (65 ≤ c.toNat && c.toNat ≤ 70) || (97 ≤ c.toNat && c.toNat ≤ 102)

/-- The `[a-z0-9]` : lowercase alphanumeric (CUID / CUID2 body charset). -/
def isLowerAlnumC (c : Char) : Bool := isDigitC c || isLowerC c

/-- Crockford Base32, both cases, excluding `I L O U` (the ULID charset
`[0-9A-HJ-NP-TV-Za-hj-np-tv-z]`). -/
def isCrockfordC (c : Char) : Bool :=
  isDigitC c
    || (65 ≤ c.toNat && c.toNat ≤ 72)   -- A-H
    || (74 ≤ c.toNat && c.toNat ≤ 78)   -- J-N
    || (80 ≤ c.toNat && c.toNat ≤ 84)   -- P-T
    || (86 ≤ c.toNat && c.toNat ≤ 90)   -- V-Z
    || (97 ≤ c.toNat && c.toNat ≤ 104)  -- a-h
    || (106 ≤ c.toNat && c.toNat ≤ 110) -- j-n
    || (112 ≤ c.toNat && c.toNat ≤ 116) -- p-t
    || (118 ≤ c.toNat && c.toNat ≤ 122) -- v-z

/-- The `[A-Za-z0-9_-]` : the NanoID / slug charset. -/
def isUrlSafeC (c : Char) : Bool := isAlnumC c || c.toNat == 45 || c.toNat == 95

/-- The `\w` : word character `[A-Za-z0-9_]`. -/
def isWordC (c : Char) : Bool := isAlnumC c || c.toNat == 95

/-- The `'-'` or `'_'` (the separators counted by the slug rule). -/
def isSepC (c : Char) : Bool := c.toNat == 45 || c.toNat == 95

/-- The `'/'`. -/
def isSlash (c : Char) : Bool := c.toNat == 47

/-! ## The compiled patterns of `add_path_group_header.go` -/

/-- The `numericPattern = ^\d+$`. -/
def numericMatch (s : List Char) : Bool := !s.isEmpty && s.all isDigitC

/-- The `uuidPattern = ^[0-9a-fA-F]{8}-(4)-(4)-(4)-(12)$` : 36 characters with
dashes at indices 8, 13, 18 and 23 and hex digits everywhere else. -/
def uuidMatch (s : List Char) : Bool :=
  s.length == 36 && (List.range 36).all fun i =>
    match s.get? i with
    | some c =>
      if i == 8 || i == 13 || i == 18 || i == 23 then c.toNat == 45 else isHexC c
    | none => false

/-- Optional timezone tail of `isoDatePattern` : `([Zz]|[+-]\d{2}:\d{2})?$`. -/
def isoTZ (r : List Char) : Bool :=
  match r with
  | [] => true
  | [c] => c.toNat == 90 || c.toNat == 122
  | [a, h1, h2, cn, m1, m2] =>
    (a.toNat == 43 || a.toNat == 45) && isDigitC h1 && isDigitC h2 &&
      cn.toNat == 58 && isDigitC m1 && isDigitC m2
  | _ => false

/-- Optional fractional seconds then timezone : `(\.\d{1,9})?([Zz]|[+-]\d{2}:\d{2})?$`. -/
def isoFracTZ (r : List Char) : Bool :=
  match r with
  | c :: rest =>
    if c.toNat == 46 then
      let ds := rest.takeWhile isDigitC
      decide (1 ≤ ds.length) && decide (ds.length ≤ 9) && isoTZ (rest.drop ds.length)
    else isoTZ (c :: rest)
  | [] => isoTZ []

/-- Optional time part of `isoDatePattern` : `([Tt]\d{2}:\d{2}:\d{2}...)?$`. -/
def isoTime (r : List Char) : Bool :=
  match r with
  | [] => true
  | t :: h1 :: h2 :: c1 :: m1 :: m2 :: c2 :: s1 :: s2 :: rest =>
    (t.toNat == 84 || t.toNat == 116) && isDigitC h1 && isDigitC h2 &&
      c1.toNat == 58 && isDigitC m1 && isDigitC m2 && c2.toNat == 58 &&
      isDigitC s1 && isDigitC s2 && isoFracTZ rest
  | _ => false

/-- The `isoDatePattern = ^\d{4}-\d{2}-\d{2}([Tt]\d{2}:\d{2}:\d{2}(\.\d{1,9})?([Zz]|[+-]\d{2}:\d{2})?)?$`. -/
def isoMatch (s : List Char) : Bool :=
  match s with
  | y1 :: y2 :: y3 :: y4 :: d1 :: m1 :: m2 :: d2 :: dd1 :: dd2 :: rest =>
    isDigitC y1 && isDigitC y2 && isDigitC y3 && isDigitC y4 &&
      d1.toNat == 45 && isDigitC m1 && isDigitC m2 && d2.toNat == 45 &&
      isDigitC dd1 && isDigitC dd2 && isoTime rest
  | _ => false

/-- The `ulidPattern = ^[0-9A-HJ-NP-TV-Za-hj-np-tv-z]{26}$`. -/
def ulidMatch (s : List Char) : Bool := s.length == 26 && s.all isCrockfordC

/-- The `cuidPattern = ^c[a-z0-9]{24}$`. -/
def cuidMatch (s : List Char) : Bool :=
  match s with
  | c :: t => c.toNat == 99 && t.length == 24 && t.all isLowerAlnumC
  | [] => false

/-- The `cuid2Pattern = ^[a-z][a-z0-9]{23}$`. -/
def cuid2Match (s : List Char) : Bool :=
  match s with
  | c :: t => isLowerC c && t.length == 23 && t.all isLowerAlnumC
  | [] => false

/-- The `nanoidPattern = ^[A-Za-z0-9_-]*[0-9][A-Za-z0-9_-]*$` : URL-safe charset
with at least one digit.  (The `len == 21` check is separate, as in Go.) -/
def nanoidMatch (s : List Char) : Bool := s.all isUrlSafeC && s.any isDigitC

/-- The `filePattern = ^.+\.\w{1,15}$` : some dot with at least one character
before it, none of them a newline (`.` does not match `\n`), and 1–15 word
characters after it running to the end. -/
def fileMatch (s : List Char) : Bool :=
  (List.range s.length).any fun i =>
    (s.get? i).any (fun c => c.toNat == 46) && decide (1 ≤ i) &&
      (s.take i).all (fun c => !(c.toNat == 10)) &&
      !(s.drop (i + 1)).isEmpty && decide ((s.drop (i + 1)).length ≤ 15) &&
      (s.drop (i + 1)).all isWordC

/-- The `slugPattern = ^[a-zA-Z0-9_-]+$`. -/
def slugCharsetMatch (s : List Char) : Bool := !s.isEmpty && s.all isUrlSafeC

/-- The `prefixPattern = ^[a-zA-Z0-9]+$`. -/
def prefixMatchB (s : List Char) : Bool := !s.isEmpty && s.all isAlnumC

/-- The full rule-10 slug test: charset match plus the `hasDigit` /
`hasSeparator` loop of the Go source. -/
def slugCrit (s : List Char) : Bool :=
  slugCharsetMatch s && s.any isDigitC && s.any isSepC

/-! ## The identifier kinds and their labels -/

/-- The nine non-literal kinds returned by `identifyIDType` (the Go function
returns the corresponding label string, or `""` which we model as `none`). -/
inductive Kind where
  | uuid | numericId | isoDate | ulid | cuid | cuid2 | nanoid | file | slug
  deriving DecidableEq, Repr

/-- The label constants `labelUUID .. labelSlug` of the Go source. -/
def kindLabel : Kind → List Char
  | .uuid => "uuid".data
  | .numericId => "numeric_id".data
  | .isoDate => "iso_date".data
  | .ulid => "ulid".data
  | .cuid => "cuid".data
  | .cuid2 => "cuid2".data
  | .nanoid => "nanoid".data
  | .file => "file".data
  | .slug => "slug".data

/-- The spec's full `IdentifierKind` enumeration (§3): the nine labels plus
`Literal` ("segment kept unchanged"). -/
inductive IdentifierKind where
  | uuid | numericId | isoDate | ulid | cuid | cuid2 | nanoid | file | slug
  | literal
  deriving DecidableEq, Repr

/-- Embedding of `Kind` into the spec's `IdentifierKind`. -/
def Kind.toIdentifierKind : Kind → IdentifierKind
  | .uuid => .uuid
  | .numericId => .numericId
  | .isoDate => .isoDate
  | .ulid => .ulid
  | .cuid => .cuid
  | .cuid2 => .cuid2
  | .nanoid => .nanoid
  | .file => .file
  | .slug => .slug

/-! ## The classifier `identifyIDType` -/

/-- The `strings.Index`-style split at the FIRST occurrence of `c` : returns
`some (before, after)` when `c` occurs, `none` otherwise.  Note
`before.length` is the Go index `idx`. -/
def breakAt (c : Char) : List Char → Option (List Char × List Char)
  | [] => none
  | x :: xs =>
    if x == c then some ([], xs)
    else
      match breakAt c xs with
      | some (p, t) => some (x :: p, t)
      | none => none

/-- Step 9a of `identifyIDType` : the colon-separated prefix extraction
(`idx := strings.Index(segment, ":"); if idx > 0 { ... }`), parameterised by
the recursive classifier `f`. -/
def colonStep (f : List Char → Option Kind) (s : List Char) : Option Kind :=
  match breakAt ':' s with
  | some (p, t) =>
    if !p.isEmpty && prefixMatchB p && !t.isEmpty then f t else none
  | none => none

/-- Step 9b of `identifyIDType` : the underscore-separated prefix extraction.
Promotes only when the suffix matches one of the UUID / ISO date / ULID /
CUID / CUID2 / NanoID patterns (then recursively classifies it) or is numeric
of length ≥ 3 (then returns NumericID directly). -/
def underscoreStep (f : List Char → Option Kind) (s : List Char) : Option Kind :=
  match breakAt '_' s with
  | some (p, t) =>
    if !p.isEmpty && prefixMatchB p && !t.isEmpty then
      if uuidMatch t || isoMatch t || ulidMatch t || cuidMatch t ||
          cuid2Match t || (t.length == 21 && nanoidMatch t) then
        f t
      else if numericMatch t && decide (3 ≤ t.length) then some .numericId
      else none
    else none
  | none => none

/-- Step 10 of `identifyIDType` : the slug check. -/
def slugStep (s : List Char) : Option Kind :=
  if slugCrit s then some .slug else none

/-- One unfolding of `identifyIDType`, parameterised by the function `f` used
for the recursive calls.  This is a line-by-line translation of the Go body:
the empty check, rules 1–8 in order, colon extraction, underscore extraction,
then the slug rule. -/
def idBody (f : List Char → Option Kind) (s : List Char) : Option Kind :=
  if s.isEmpty then none
  else if uuidMatch s then some .uuid
  else if numericMatch s then some .numericId
  else if isoMatch s then some .isoDate
  else if ulidMatch s then some .ulid
  else if cuidMatch s then some .cuid
  else if cuid2Match s then some .cuid2
  else if s.length == 21 && nanoidMatch s then some .nanoid
  else if fileMatch s then some .file
  else
    match colonStep f s with
    | some k => some k
    | none =>
      match underscoreStep f s with
      | some k => some k
      | none => slugStep s

/-- Fuel-indexed classifier: each recursive call strictly shortens the
segment, so `length + 1` units of fuel always suffice (proved below). -/
def idTypeF : Nat → List Char → Option Kind
  | 0, _ => none
  | n + 1, s => idBody (idTypeF n) s

/-- The `identifyIDType` : the segment classifier of `add_path_group_header.go`.
`none` models the Go empty-string result ("no ID recognised, keep literal"). -/
def identifyIDType (s : List Char) : Option Kind :=
  idTypeF (s.length + 1) s

/-- The spec's `classify` (§4.1): total function from a segment to an
`IdentifierKind`, with unrecognised segments mapped to `Literal`. -/
def classifySeg (s : List Char) : IdentifierKind :=
  match identifyIDType s with
  | some k => k.toIdentifierKind
  | none => .literal

/-! ## The path normalizer `extractPathGroup` -/

/-- The `strings.Trim(path, "/")`. -/
def trimSlashes (p : List Char) : List Char :=
  ((p.dropWhile isSlash).reverse.dropWhile isSlash).reverse

/-- The `strings.Split(s, "/")`. -/
def splitSlash : List Char → List (List Char)
  | [] => [[]]
  | c :: rest =>
    if isSlash c then [] :: splitSlash rest
    else
      match splitSlash rest with
      | s :: ss => (c :: s) :: ss
      | [] => [[c]]

/-- The `strings.Join(result, "/")`. -/
def joinSegs : List (List Char) → List Char
  | [] => []
  | [r] => r
  | r :: rest => r ++ '/' :: joinSegs rest

/-- The non-empty segments of a path, in order: split the trimmed path on
`/` and skip empty pieces (the `if segment == "" { continue }` of the Go
loop). -/
def pathSegs (p : List Char) : List (List Char) :=
  (splitSlash (trimSlashes p)).filter (fun s => !s.isEmpty)

/-- Per-segment substitution of the new scheme: an identified segment becomes
its kind label, anything else is kept. -/
def substSeg (s : List Char) : List Char :=
  match identifyIDType s with
  | some k => kindLabel k
  | none => s

/-- The `extractPathGroup` of `add_path_group_header.go` : the labelled path
normalizer. -/
def extractPathGroup (p : List Char) : List Char :=
  if p.isEmpty || p == ['/'] then p
  else '/' :: joinSegs ((pathSegs p).map substSeg)

/-! ## The legacy wildcard variant (`add-path-header/add_path_header.go`) -/

/-- Per-segment substitution of the legacy scheme: UUID, numeric, or
digit-and-separator slug segments become `"*"`, anything else is kept. -/
def legacySubstSeg (s : List Char) : List Char :=
  if uuidMatch s then ['*']
  else if numericMatch s then ['*']
  else if slugCrit s then ['*']
  else s

/-- The `extractPathGroup` of the legacy `add-path-header` plugin. -/
def legacyExtractPathGroup (p : List Char) : List Char :=
  if p.isEmpty || p == ['/'] then p
  else '/' :: joinSegs ((pathSegs p).map legacySubstSeg)

/-! ## Auxiliary definitions used to state the claims -/

/-- The matching conditions of rules 1–8 of `identifyIDType`, indexed in
source order (0 = UUID … 7 = File).  Index 6 includes the separate
`len(segment) == 21` check, exactly as the Go source combines it. -/
def ruleMatch : Nat → List Char → Bool
  | 0, s => uuidMatch s
  | 1, s => numericMatch s
  | 2, s => isoMatch s
  | 3, s => ulidMatch s
  | 4, s => cuidMatch s
  | 5, s => cuid2Match s
  | 6, s => s.length == 21 && nanoidMatch s
  | 7, s => fileMatch s
  | _, _ => false

/-- The kind returned by rule `k` (0 = UUID … 7 = File). -/
def ruleKind : Nat → Kind
  | 0 => .uuid
  | 1 => .numericId
  | 2 => .isoDate
  | 3 => .ulid
  | 4 => .cuid
  | 5 => .cuid2
  | 6 => .nanoid
  | _ => .file

/-- Rules 1–8 alone, with no prefix extraction and no slug fallback: the
classifier that claim C3 says the recursive call behaves like. -/
def idRules8 (s : List Char) : Option Kind :=
  if s.isEmpty then none
  else if uuidMatch s then some .uuid
  else if numericMatch s then some .numericId
  else if isoMatch s then some .isoDate
  else if ulidMatch s then some .ulid
  else if cuidMatch s then some .cuid
  else if cuid2Match s then some .cuid2
  else if s.length == 21 && nanoidMatch s then some .nanoid
  else if fileMatch s then some .file
  else none

/-- The depth-1 classifier asserted by claim C3: the top level is the full
body, but every recursive call on a prefix-stripped suffix only retries
rules 1–8. -/
def idTypeDepth1 (s : List Char) : Option Kind :=
  idBody idRules8 s

/-- The `strings.Index(segment, ":") > 0` : the segment contains a colon at a
position strictly after the first character. -/
def hasColonGT0 (s : List Char) : Bool :=
  match breakAt ':' s with
  | some (p, _) => !p.isEmpty
  | none => false

/-- Body of the claim-C7 variant classifier: identical to `idBody` except
that the underscore-splitting step is skipped whenever the segment contains
a colon at a position > 0. -/
def idBodyNU (f : List Char → Option Kind) (s : List Char) : Option Kind :=
  if s.isEmpty then none
  else if uuidMatch s then some .uuid
  else if numericMatch s then some .numericId
  else if isoMatch s then some .isoDate
  else if ulidMatch s then some .ulid
  else if cuidMatch s then some .cuid
  else if cuid2Match s then some .cuid2
  else if s.length == 21 && nanoidMatch s then some .nanoid
  else if fileMatch s then some .file
  else
    match colonStep f s with
    | some k => some k
    | none =>
      match (if hasColonGT0 s then none else underscoreStep f s) with
      | some k => some k
      | none => slugStep s

/-- Fuel-indexed form of the claim-C7 variant. -/
def idTypeNUF : Nat → List Char → Option Kind
  | 0, _ => none
  | n + 1, s => idBodyNU (idTypeNUF n) s

/-- The claim-C7 variant classifier: skips underscore extraction whenever a
colon exists at a position > 0. -/
def idTypeNoUnderscore (s : List Char) : Option Kind :=
  idTypeNUF (s.length + 1) s

/-- The File criterion exactly as claim C5 words it: the segment contains a
`'.'` such that the text after that dot is 1–15 word characters — with no
requirement of a character before the dot. -/
def claimFileDot (s : List Char) : Bool :=
  (List.range s.length).any fun i =>
    (s.get? i).any (fun c => c.toNat == 46) &&
      !(s.drop (i + 1)).isEmpty && decide ((s.drop (i + 1)).length ≤ 15) &&
      (s.drop (i + 1)).all isWordC

/-- Holds (is `true`) exactly when the list contains no two consecutive
slashes. -/
def noDoubleSlash : List Char → Bool
  | c1 :: c2 :: rest => !(isSlash c1 && isSlash c2) && noDoubleSlash (c2 :: rest)
  | _ => true

/-- A path in canonical form: empty, the bare root, or leading slash, no
empty segment (no `//`), and no trailing slash. -/
def canonicalPath (p : List Char) : Bool :=
  p.isEmpty || p == ['/'] ||
    (p.head? == some '/' && noDoubleSlash p && !(p.getLast? == some '/'))

/-- Hypothesis of claim C9 for one segment: the segment is directly a UUID,
a numeric ID, a digit-and-separator slug, or is kept literal — it is not
classified through rules 3–9 (dates, ULID/CUID/CUID2/NanoID, File, or
prefix extraction). -/
def c9SegHyp (s : List Char) : Prop :=
  uuidMatch s = true ∨ numericMatch s = true ∨ slugCrit s = true ∨
    identifyIDType s = none

instance c9SegHypDecidable (s : List Char) : Decidable (c9SegHyp s) :=
  inferInstanceAs (Decidable (uuidMatch s = true ∨ numericMatch s = true ∨
    slugCrit s = true ∨ identifyIDType s = none))

/-! ## Basic facts about `breakAt` and the fuel -/

theorem breakAt_eq_some {c : Char} :
    ∀ {s p t : List Char}, breakAt c s = some (p, t) → s = p ++ c :: t ∧ c ∉ p := by
  intro s
  induction s with
  | nil => intro p t h; simp [breakAt] at h
  | cons x xs ih =>
    intro p t h
    by_cases hx : x = c
    · subst hx
      simp [breakAt] at h
      obtain ⟨hp, ht⟩ := h
      subst hp; subst ht
      simp
    · rw [breakAt, if_neg (by simpa using hx)] at h
      cases hb : breakAt c xs with
      | none => rw [hb] at h; simp at h
      | some pt =>
        obtain ⟨p', t'⟩ := pt
        rw [hb] at h
        simp at h
        obtain ⟨hp, ht⟩ := h
        obtain ⟨hs, hmem⟩ := ih hb
        subst ht
        constructor
        · rw [← hp, hs]; simp
        · rw [← hp]
          simp [hmem]
          exact fun h' => hx h'.symm

theorem breakAt_append {c : Char} :
    ∀ {p : List Char} (t : List Char), c ∉ p → breakAt c (p ++ c :: t) = some (p, t) := by
  intro p
  induction p with
  | nil => intro t _; simp [breakAt]
  | cons x xs ih =>
    intro t hmem
    have hx : ¬(x == c) = true := by
      simp only [List.mem_cons] at hmem
      simp
      exact fun h => hmem (Or.inl h.symm)
    rw [List.cons_append, breakAt, if_neg hx, ih t (fun h => hmem (List.mem_cons_of_mem _ h))]

theorem breakAt_none {c : Char} :
    ∀ {s : List Char}, breakAt c s = none → c ∉ s := by
  intro s
  induction s with
  | nil => intro _; simp
  | cons x xs ih =>
    intro h
    rw [breakAt] at h
    by_cases hx : (x == c) = true
    · rw [if_pos hx] at h; simp at h
    · rw [if_neg hx] at h
      cases hb : breakAt c xs with
      | none =>
        have := ih hb
        simp only [List.mem_cons]
        rintro (h' | h')
        · exact hx (by simp [h'])
        · exact this h'
      | some pt => rw [hb] at h; cases pt; simp at h

/-- The two prefix-extraction steps only call the recursive classifier on
strict sub-segments, so `idBody` only depends on `f` below `s.length`. -/
theorem colonStep_congr {f g : List Char → Option Kind} {s : List Char}
    (h : ∀ t, t.length < s.length → f t = g t) : colonStep f s = colonStep g s := by
  unfold colonStep
  cases hb : breakAt ':' s with
  | none => rfl
  | some pt =>
    obtain ⟨p, t⟩ := pt
    have hlen : t.length < s.length := by
      have := (breakAt_eq_some hb).1
      rw [this]; simp
      omega
    simp only [h t hlen]

theorem underscoreStep_congr {f g : List Char → Option Kind} {s : List Char}
    (h : ∀ t, t.length < s.length → f t = g t) :
    underscoreStep f s = underscoreStep g s := by
  unfold underscoreStep
  cases hb : breakAt '_' s with
  | none => rfl
  | some pt =>
    obtain ⟨p, t⟩ := pt
    have hlen : t.length < s.length := by
      have := (breakAt_eq_some hb).1
      rw [this]; simp
      omega
    simp only [h t hlen]

theorem idBody_congr {f g : List Char → Option Kind} {s : List Char}
    (h : ∀ t, t.length < s.length → f t = g t) : idBody f s = idBody g s := by
  unfold idBody
  rw [colonStep_congr h, underscoreStep_congr h]

/-- Fuel irrelevance: any fuel strictly above the segment length computes the
same classification. -/
theorem idTypeF_congr :
    ∀ (k : Nat) (s : List Char) (m n : Nat), s.length ≤ k →
      s.length < m → s.length < n → idTypeF m s = idTypeF n s := by
  intro k
  induction k with
  | zero =>
    intro s m n hk hm hn
    have hs : s = [] := List.length_eq_zero.mp (Nat.le_zero.mp hk)
    subst hs
    obtain ⟨m', rfl⟩ := Nat.exists_eq_succ_of_ne_zero (by omega : m ≠ 0)
    obtain ⟨n', rfl⟩ := Nat.exists_eq_succ_of_ne_zero (by omega : n ≠ 0)
    rfl
  | succ k ih =>
    intro s m n hk hm hn
    obtain ⟨m', rfl⟩ := Nat.exists_eq_succ_of_ne_zero (by omega : m ≠ 0)
    obtain ⟨n', rfl⟩ := Nat.exists_eq_succ_of_ne_zero (by omega : n ≠ 0)
    show idBody (idTypeF m') s = idBody (idTypeF n') s
    exact idBody_congr fun t ht => ih t m' n' (by omega) (by omega) (by omega)

/-- The defining unfolding of `identifyIDType` : it satisfies the Go
recursion literally. -/
theorem idType_eq (s : List Char) : identifyIDType s = idBody identifyIDType s := by
  show idBody (idTypeF s.length) s = idBody identifyIDType s
  exact idBody_congr fun t ht =>
    idTypeF_congr s.length t s.length (t.length + 1) (by omega) ht (by omega)

/-! ## Splitting and joining lemmas -/

theorem joinSegs_single (r : List Char) : joinSegs [r] = r := rfl

theorem joinSegs_cons₂ (r x : List Char) (xs : List (List Char)) :
    joinSegs (r :: x :: xs) = r ++ '/' :: joinSegs (x :: xs) := rfl

theorem splitSlash_ne_nil : ∀ (l : List Char), splitSlash l ≠ [] := by
  intro l
  induction l with
  | nil => simp [splitSlash]
  | cons c rest ih =>
    rw [splitSlash]
    by_cases hc : isSlash c = true
    · rw [if_pos hc]; simp
    · rw [if_neg hc]
      cases h : splitSlash rest with
      | nil => exact absurd h ih
      | cons s ss => simp

theorem mem_splitSlash_no_slash :
    ∀ (l : List Char), ∀ s ∈ splitSlash l, ∀ c ∈ s, isSlash c = false := by
  intro l
  induction l with
  | nil =>
    intro s hs c hc
    simp [splitSlash] at hs
    subst hs
    simp at hc
  | cons x rest ih =>
    intro s hs c hc
    rw [splitSlash] at hs
    by_cases hx : isSlash x = true
    · rw [if_pos hx] at hs
      rcases List.mem_cons.mp hs with h | h
      · subst h; simp at hc
      · exact ih s h c hc
    · rw [if_neg hx] at hs
      cases hsp : splitSlash rest with
      | nil => exact absurd hsp (splitSlash_ne_nil rest)
      | cons s0 ss =>
        rw [hsp] at hs
        rcases List.mem_cons.mp hs with h | h
        · subst h
          rcases List.mem_cons.mp hc with h' | h'
          · subst h'
            simpa using hx
          · exact ih s0 (hsp ▸ List.mem_cons_self s0 ss) c h'
        · exact ih s (hsp ▸ List.mem_cons_of_mem s0 h) c hc

theorem splitSlash_of_no_slash :
    ∀ (r : List Char), (∀ c ∈ r, isSlash c = false) → splitSlash r = [r] := by
  intro r
  induction r with
  | nil => intro _; rfl
  | cons x xs ih =>
    intro h
    have hx : isSlash x = false := h x (List.mem_cons_self x xs)
    rw [splitSlash, if_neg (by simp [hx]), ih fun c hc => h c (List.mem_cons_of_mem x hc)]

theorem splitSlash_append (x : List Char) :
    ∀ (r : List Char), (∀ c ∈ r, isSlash c = false) →
      splitSlash (r ++ '/' :: x) = r :: splitSlash x := by
  intro r
  induction r with
  | nil =>
    intro _
    rw [List.nil_append, splitSlash, if_pos (by decide)]
  | cons c cs ih =>
    intro h
    have hc : isSlash c = false := h c (List.mem_cons_self c cs)
    rw [List.cons_append, splitSlash, if_neg (by simp [hc]),
      ih fun d hd => h d (List.mem_cons_of_mem c hd)]

theorem splitSlash_joinSegs :
    ∀ (rs : List (List Char)), rs ≠ [] →
      (∀ r ∈ rs, ∀ c ∈ r, isSlash c = false) →
      splitSlash (joinSegs rs) = rs := by
  intro rs
  induction rs with
  | nil => intro h; exact absurd rfl h
  | cons r rest ih =>
    intro _ h
    cases rest with
    | nil =>
      rw [joinSegs_single, splitSlash_of_no_slash r (h r (List.mem_cons_self r _))]
    | cons x xs =>
      rw [joinSegs_cons₂, splitSlash_append _ r (h r (List.mem_cons_self r _)),
        ih (by simp) fun r' hr' => h r' (List.mem_cons_of_mem r hr')]

theorem char_eq_of_toNat {c d : Char} (h : c.toNat = d.toNat) : c = d :=
  Char.eq_of_val_eq (UInt32.ext h)

theorem eq_slash_of_isSlash {c : Char} (h : isSlash c = true) : c = '/' := by
  have h47 : c.toNat = 47 := by simpa [isSlash] using h
  exact char_eq_of_toNat (by rw [h47]; rfl)

theorem joinSegs_splitSlash : ∀ (l : List Char), joinSegs (splitSlash l) = l := by
  intro l
  induction l with
  | nil => rfl
  | cons c rest ih =>
    rw [splitSlash]
    by_cases hc : isSlash c = true
    · rw [if_pos hc, eq_slash_of_isSlash hc]
      cases h : splitSlash rest with
      | nil => exact absurd h (splitSlash_ne_nil rest)
      | cons s ss =>
        rw [joinSegs_cons₂, List.nil_append, ← h, ih]
    · rw [if_neg hc]
      cases h : splitSlash rest with
      | nil => exact absurd h (splitSlash_ne_nil rest)
      | cons s ss =>
        cases ss with
        | nil =>
          rw [joinSegs_single]
          have hrest : joinSegs [s] = rest := by rw [← h, ih]
          rw [joinSegs_single] at hrest
          rw [hrest]
        | cons s2 ss2 =>
          have hrest : s ++ '/' :: joinSegs (s2 :: ss2) = rest := by
            rw [← joinSegs_cons₂, ← h, ih]
          rw [joinSegs_cons₂, List.cons_append, hrest]

theorem joinSegs_concat :
    ∀ (rs : List (List Char)), rs ≠ [] → (∀ r ∈ rs, r ≠ []) →
      (∀ r ∈ rs, ∀ c ∈ r, isSlash c = false) →
      ∃ ys c, joinSegs rs = ys ++ [c] ∧ isSlash c = false := by
  intro rs
  induction rs with
  | nil => intro h; exact absurd rfl h
  | cons r rest ih =>
    intro _ hne hsl
    cases rest with
    | nil =>
      rcases List.eq_nil_or_concat r with h | ⟨ys, c, h⟩
      · exact absurd h (hne r (List.mem_cons_self r _))
      · rw [List.concat_eq_append] at h
        refine ⟨ys, c, by rw [joinSegs_single, h], ?_⟩
        exact hsl r (List.mem_cons_self r _) c (by rw [h]; simp)
    | cons x xs =>
      obtain ⟨ys, c, hj, hc⟩ := ih (by simp)
        (fun r' hr' => hne r' (List.mem_cons_of_mem r hr'))
        (fun r' hr' => hsl r' (List.mem_cons_of_mem r hr'))
      exact ⟨r ++ '/' :: ys, c, by rw [joinSegs_cons₂, hj]; simp, hc⟩

theorem joinSegs_head :
    ∀ (r : List Char) (rest : List (List Char)), ∃ w, joinSegs (r :: rest) = r ++ w := by
  intro r rest
  cases rest with
  | nil => exact ⟨[], by rw [joinSegs_single, List.append_nil]⟩
  | cons x xs => exact ⟨'/' :: joinSegs (x :: xs), joinSegs_cons₂ r x xs⟩

/-- Trimming a canonical template `/seg₁/…/segₙ` (all segments non-empty and
slash-free) removes exactly the leading slash. -/
theorem trimSlashes_canon :
    ∀ (rs : List (List Char)), rs ≠ [] → (∀ r ∈ rs, r ≠ []) →
      (∀ r ∈ rs, ∀ c ∈ r, isSlash c = false) →
      trimSlashes ('/' :: joinSegs rs) = joinSegs rs := by
  intro rs hrs hne hsl
  unfold trimSlashes
  rw [List.dropWhile_cons_of_pos (by decide)]
  have hfront : (joinSegs rs).dropWhile isSlash = joinSegs rs := by
    cases rs with
    | nil => exact absurd rfl hrs
    | cons r rest =>
      obtain ⟨w, hw⟩ := joinSegs_head r rest
      cases r with
      | nil => exact absurd rfl (hne [] (List.mem_cons_self _ _))
      | cons c cs =>
        have hc : isSlash c = false :=
          hsl (c :: cs) (List.mem_cons_self _ _) c (by simp)
        rw [hw, List.cons_append, List.dropWhile_cons_of_neg (by simp [hc]),
          ← List.cons_append, ← hw]
  rw [hfront]
  obtain ⟨ys, c', hj, hc'⟩ := joinSegs_concat rs hrs hne hsl
  rw [hj, List.reverse_append, List.reverse_singleton, List.singleton_append,
    List.dropWhile_cons_of_neg (by simp [hc']), List.reverse_cons, List.reverse_reverse]

/-- The non-empty segments of a canonical template are exactly the tokens it
was built from. -/
theorem pathSegs_canon :
    ∀ (rs : List (List Char)), rs ≠ [] → (∀ r ∈ rs, r ≠ []) →
      (∀ r ∈ rs, ∀ c ∈ r, isSlash c = false) →
      pathSegs ('/' :: joinSegs rs) = rs := by
  intro rs hrs hne hsl
  unfold pathSegs
  rw [trimSlashes_canon rs hrs hne hsl, splitSlash_joinSegs rs hrs hsl]
  exact List.filter_eq_self.mpr fun r hr => by simpa using hne r hr

/-! ## Per-segment facts -/

theorem kindLabel_literal : ∀ k : Kind, identifyIDType (kindLabel k) = none := by
  intro k
  cases k <;> decide

theorem kindLabel_ne_nil : ∀ k : Kind, kindLabel k ≠ [] := by
  intro k
  cases k <;> decide

theorem kindLabel_no_slash : ∀ (k : Kind), ∀ c ∈ kindLabel k, isSlash c = false := by
  intro k
  cases k <;> decide

theorem substSeg_idem (s : List Char) : substSeg (substSeg s) = substSeg s := by
  unfold substSeg
  cases h : identifyIDType s with
  | none => rw [h]
  | some k => rw [kindLabel_literal k]

theorem substSeg_ne_nil {s : List Char} (h : s ≠ []) : substSeg s ≠ [] := by
  unfold substSeg
  cases hid : identifyIDType s with
  | none => exact h
  | some k => exact kindLabel_ne_nil k

theorem substSeg_no_slash {s : List Char} (h : ∀ c ∈ s, isSlash c = false) :
    ∀ c ∈ substSeg s, isSlash c = false := by
  unfold substSeg
  cases hid : identifyIDType s with
  | none => exact h
  | some k => exact kindLabel_no_slash k

theorem mem_pathSegs_ne_nil {p s : List Char} (h : s ∈ pathSegs p) : s ≠ [] := by
  have := List.of_mem_filter h
  simpa using this

theorem mem_pathSegs_no_slash {p s : List Char} (h : s ∈ pathSegs p) :
    ∀ c ∈ s, isSlash c = false :=
  mem_splitSlash_no_slash (trimSlashes p) s (List.mem_of_mem_filter h)

/-! ## Claim theorems -/

/-- C1. `normalize` is idempotent on every path string, and every
canonical kind label, classified as a segment, yields `Literal`
(`identifyIDType` returns `none`), so labels substituted on a first pass are
left unchanged by a second pass. -/
theorem c1_normalize_idempotent :
    (∀ p : List Char, extractPathGroup (extractPathGroup p) = extractPathGroup p) ∧
      ∀ k : Kind, identifyIDType (kindLabel k) = none := by
  refine ⟨?_, kindLabel_literal⟩
  intro p
  by_cases hp : (p.isEmpty || p == ['/']) = true
  · have h1 : extractPathGroup p = p := by rw [extractPathGroup, if_pos hp]
    rw [h1, h1]
  · have h1 : extractPathGroup p = '/' :: joinSegs ((pathSegs p).map substSeg) := by
      rw [extractPathGroup, if_neg hp]
    set rs : List (List Char) := (pathSegs p).map substSeg with hrs
    have hne : ∀ r ∈ rs, r ≠ [] := by
      intro r hr
      obtain ⟨s, hs, rfl⟩ := List.mem_map.mp hr
      exact substSeg_ne_nil (mem_pathSegs_ne_nil hs)
    have hsl : ∀ r ∈ rs, ∀ c ∈ r, isSlash c = false := by
      intro r hr
      obtain ⟨s, hs, rfl⟩ := List.mem_map.mp hr
      exact substSeg_no_slash (mem_pathSegs_no_slash hs)
    have hid : ∀ r ∈ rs, substSeg r = r := by
      intro r hr
      obtain ⟨s, hs, rfl⟩ := List.mem_map.mp hr
      exact substSeg_idem s
    rw [h1]
    cases heq : rs with
    | nil => decide
    | cons r0 rest =>
      rw [← heq]
      have hjne : joinSegs rs ≠ [] := by
        rw [heq]
        obtain ⟨w, hw⟩ := joinSegs_head r0 rest
        rw [hw]
        have : r0 ≠ [] := hne r0 (by rw [heq]; exact List.mem_cons_self _ _)
        cases r0 with
        | nil => exact absurd rfl this
        | cons a b => simp
      have hguard : (('/' :: joinSegs rs).isEmpty || ('/' :: joinSegs rs) == ['/']) = false := by
        simp [hjne]
      rw [extractPathGroup, if_neg (by rw [hguard]; simp),
        pathSegs_canon rs (by rw [heq]; simp) hne hsl, List.map_congr_left hid,
        List.map_id']

/-- C2. `classify` is a total, terminating function: every segment is
mapped to exactly one `IdentifierKind`, and the recursion needs no more than
`length` fuel — any fuel beyond the segment length computes the same result,
so the recursive calls on colon/underscore suffixes always terminate. -/
theorem c2_classify_total (s : List Char) :
    (∃! k : IdentifierKind, classifySeg s = k) ∧
      ∀ n : Nat, s.length < n → idTypeF n s = identifyIDType s := by
  refine ⟨⟨classifySeg s, rfl, fun y hy => hy.symm⟩, ?_⟩
  intro n hn
  exact idTypeF_congr s.length s n (s.length + 1) le_rfl hn (by omega)

/-- Witness for C2 at a concrete segment and fuel. -/
theorem c2_classify_total_witness :
    idTypeF 7 "usr:42".data = identifyIDType "usr:42".data :=
  (c2_classify_total "usr:42".data).2 7 (by decide)

/-- C3 is false as stated: on the multiply-prefixed segment
`"a:b:12345"` the code classifies NumericID (the colon extraction recurses
into the full classifier, which strips the second prefix too), while the
depth-1 classifier asserted by the claim — recursive calls retry rules 1–8
only — yields `none` (Literal). -/
theorem c3_counterexample :
    identifyIDType "a:b:12345".data = some Kind.numericId ∧
      idTypeDepth1 "a:b:12345".data = none := by
  exact ⟨by decide, by decide⟩

/-- C3 (amended). The prefix-stripping recursion is NOT bounded to
depth 1: the colon extraction recursively invokes the full classifier, so
nested prefixes are stripped repeatedly (termination is guaranteed because
each suffix is strictly shorter).  Whenever rules 1–8 fail on `p ++ ":" ++ t`
with `p` alphanumeric and `t` non-empty, the segment inherits the full
classification of `t`. -/
theorem c3_amended (p t : List Char) (k : Kind)
    (hpre : prefixMatchB p = true) (ht : t ≠ [])
    (hrules : ∀ j, j < 8 → ruleMatch j (p ++ ':' :: t) = false)
    (hk : identifyIDType t = some k) :
    identifyIDType (p ++ ':' :: t) = some k := by
  have hpn : p.isEmpty = false := by
    cases p with
    | nil => simp [prefixMatchB] at hpre
    | cons a b => rfl
  have hcolon : ':' ∉ p := by
    intro hmem
    have hall : p.all isAlnumC = true := by
      unfold prefixMatchB at hpre
      exact (Bool.and_eq_true_iff.mp hpre).2
    have := List.all_eq_true.mp hall ':' hmem
    simp [isAlnumC, isDigitC, isUpperC, isLowerC] at this
  have htn : t.isEmpty = false := by
    cases t with
    | nil => exact absurd rfl ht
    | cons a b => rfl
  have hne : (p ++ ':' :: t).isEmpty = false := by
    cases p <;> rfl
  have h0 : uuidMatch (p ++ ':' :: t) = false := hrules 0 (by omega)
  have h1 : numericMatch (p ++ ':' :: t) = false := hrules 1 (by omega)
  have h2 : isoMatch (p ++ ':' :: t) = false := hrules 2 (by omega)
  have h3 : ulidMatch (p ++ ':' :: t) = false := hrules 3 (by omega)
  have h4 : cuidMatch (p ++ ':' :: t) = false := hrules 4 (by omega)
  have h5 : cuid2Match (p ++ ':' :: t) = false := hrules 5 (by omega)
  have h6 : ((p ++ ':' :: t).length == 21 && nanoidMatch (p ++ ':' :: t)) = false :=
    hrules 6 (by omega)
  have h7 : fileMatch (p ++ ':' :: t) = false := hrules 7 (by omega)
  have hcs : colonStep identifyIDType (p ++ ':' :: t) = some k := by
    unfold colonStep
    rw [breakAt_append t hcolon]
    show (if (!p.isEmpty && prefixMatchB p && !t.isEmpty) = true
        then identifyIDType t else none) = some k
    rw [if_pos (by simp [hpn, hpre, htn]), hk]
  rw [idType_eq]
  unfold idBody
  rw [if_neg (by simp [hne]), if_neg (by simp [h0]), if_neg (by simp [h1]),
    if_neg (by simp [h2]), if_neg (by simp [h3]), if_neg (by simp [h4]),
    if_neg (by simp [h5]), if_neg (by rw [h6]; simp), if_neg (by simp [h7]), hcs]

/-- Witness for C3 (amended): `"a:b:12345"` classifies as the innermost
suffix `"12345"` does — NumericID. -/
theorem c3_amended_witness :
    identifyIDType "a:b:12345".data = some Kind.numericId :=
  c3_amended "a".data "b:12345".data Kind.numericId (by decide) (by decide)
    (by decide) (by decide)

/-- C8. The two concrete scenarios of the spec: a colon-prefixed NanoID
is stripped and labelled, and an underscore segment with a short non-ID
suffix falls through to Slug. -/
theorem c8_concrete_scenarios :
    extractPathGroup "/api/v1/users/usr:V1StGXR8_Z5jdHi6B-myT/profile".data =
        "/api/v1/users/nanoid/profile".data ∧
      extractPathGroup "/api/v1/users/not_a_prefix_123/profile".data =
        "/api/v1/users/slug/profile".data := by
  exact ⟨by decide, by decide⟩

/-! ## Canonical-path plumbing -/

theorem nds_cons {c : Char} {l : List Char} (h : noDoubleSlash (c :: l) = true) :
    noDoubleSlash l = true := by
  cases l with
  | nil => rfl
  | cons c2 rest =>
    rw [noDoubleSlash] at h
    exact (Bool.and_eq_true_iff.mp h).2

theorem nds_append_right :
    ∀ (a : List Char) {b : List Char}, noDoubleSlash (a ++ b) = true →
      noDoubleSlash b = true := by
  intro a
  induction a with
  | nil => intro b h; exact h
  | cons c a' ih => intro b h; exact ih (nds_cons h)

theorem no_slash_of_not_mem {r : List Char} (h : '/' ∉ r) :
    ∀ c ∈ r, isSlash c = false := by
  intro c hc
  by_cases hs : isSlash c = true
  · exact absurd (eq_slash_of_isSlash hs ▸ hc) h
  · simpa using hs

theorem splitSlash_all_ne_nil :
    ∀ (n : Nat) (t : List Char), t.length ≤ n → t ≠ [] →
      t.head? ≠ some '/' → t.getLast? ≠ some '/' → noDoubleSlash t = true →
      ∀ s ∈ splitSlash t, s ≠ [] := by
  intro n
  induction n with
  | zero =>
    intro t hlen ht _ _ _ _ _
    exact absurd (List.length_eq_zero.mp (Nat.le_zero.mp hlen)) ht
  | succ n ih =>
    intro t hlen ht hhead hlast hnds s hs
    cases hb : breakAt '/' t with
    | none =>
      rw [splitSlash_of_no_slash t (no_slash_of_not_mem (breakAt_none hb))] at hs
      simp at hs
      subst hs
      exact ht
    | some rx =>
      obtain ⟨r, x⟩ := rx
      obtain ⟨hteq, hrns⟩ := breakAt_eq_some hb
      have hrne : r ≠ [] := by
        intro h
        subst h
        rw [List.nil_append] at hteq
        exact hhead (by rw [hteq]; rfl)
      have hxne : x ≠ [] := by
        intro h
        subst h
        exact hlast (by rw [hteq, List.getLast?_append_cons]; rfl)
      rw [hteq, splitSlash_append x r (no_slash_of_not_mem hrns)] at hs
      rcases List.mem_cons.mp hs with h | h
      · exact h ▸ hrne
      · have hxhead : x.head? ≠ some '/' := by
          have hnds2 : noDoubleSlash ('/' :: x) = true := nds_append_right r (hteq ▸ hnds)
          cases x with
          | nil => simp
          | cons c2 rest =>
            rw [noDoubleSlash] at hnds2
            have := (Bool.and_eq_true_iff.mp hnds2).1
            intro hc
            simp at hc
            rw [hc] at this
            simp [isSlash] at this
        have hxlast : x.getLast? ≠ some '/' := by
          rw [hteq, List.getLast?_append_cons] at hlast
          cases x with
          | nil => simp
          | cons c2 rest =>
            rwa [List.getLast?_cons_cons] at hlast
        have hxnds : noDoubleSlash x = true :=
          nds_cons (nds_append_right r (hteq ▸ hnds))
        have hxlen : x.length ≤ n := by
          have : t.length = r.length + 1 + x.length := by rw [hteq]; simp; omega
          omega
        exact ih x hxlen hxne hxhead hxlast hxnds s h

/-- A canonical non-root path `/t` trims to exactly `t`. -/
theorem trimSlashes_cons_slash {t : List Char} (htne : t ≠ [])
    (hhead : t.head? ≠ some '/') (hlast : t.getLast? ≠ some '/') :
    trimSlashes ('/' :: t) = t := by
  unfold trimSlashes
  rw [List.dropWhile_cons_of_pos (by decide)]
  have hfront : t.dropWhile isSlash = t := by
    cases t with
    | nil => rfl
    | cons c rest =>
      have hc : isSlash c = false := by
        by_cases h : isSlash c = true
        · exact absurd (by rw [eq_slash_of_isSlash h]; rfl) hhead
        · simpa using h
      rw [List.dropWhile_cons_of_neg (by simp [hc])]
  rw [hfront]
  rcases List.eq_nil_or_concat t with h | ⟨ys, c, h⟩
  · exact absurd h htne
  · rw [List.concat_eq_append] at h
    have hc : isSlash c = false := by
      by_cases hcs : isSlash c = true
      · refine absurd ?_ hlast
        rw [h, eq_slash_of_isSlash hcs, List.getLast?_append_cons]
        rfl
      · simpa using hcs
    rw [h, List.reverse_append, List.reverse_singleton, List.singleton_append,
      List.dropWhile_cons_of_neg (by simp [hc]), List.reverse_cons, List.reverse_reverse]

/-- C4 is false as stated: the all-Literal path `"/foo/"` (its one
segment `"foo"` classifies as Literal) does not come back unchanged —
`extractPathGroup` drops the trailing slash. -/
theorem c4_counterexample :
    identifyIDType "foo".data = none ∧
      extractPathGroup "/foo/".data ≠ "/foo/".data := by
  exact ⟨by decide, by decide⟩

/-- C4 (amended). Literal preservation holds for canonical paths: if `p`
is `""`, `"/"`, or starts with `'/'`, contains no empty segment and has no
trailing slash, and every segment of `p` classifies as Literal, then
`extractPathGroup p = p`. -/
theorem c4_amended (p : List Char) (hcanon : canonicalPath p = true)
    (hlit : ∀ seg ∈ pathSegs p, identifyIDType seg = none) :
    extractPathGroup p = p := by
  by_cases hg : (p.isEmpty || p == ['/']) = true
  · rw [extractPathGroup, if_pos hg]
  · have hshape : p.head? = some '/' ∧ noDoubleSlash p = true ∧ p.getLast? ≠ some '/' := by
      unfold canonicalPath at hcanon
      simp only [Bool.or_eq_true] at hcanon hg
      push_neg at hg
      rcases hcanon with (h | h) | h
      · exact absurd (Or.inl h) (by simpa using hg)
      · exact absurd (Or.inr h) (by simpa using hg)
      · obtain ⟨h1, h2⟩ := Bool.and_eq_true_iff.mp h
        obtain ⟨h1a, h1b⟩ := Bool.and_eq_true_iff.mp h1
        refine ⟨by simpa using h1a, h1b, ?_⟩
        intro hlastp
        simp [hlastp] at h2
    obtain ⟨hhead, hnds, hlast⟩ := hshape
    obtain ⟨t, rfl⟩ : ∃ t, p = '/' :: t := by
      cases p with
      | nil => simp at hhead
      | cons c rest =>
        refine ⟨rest, ?_⟩
        have : c = '/' := by simpa using hhead
        rw [this]
    have htne : t ≠ [] := by
      intro h
      subst h
      simp at hg
    have hthead : t.head? ≠ some '/' := by
      cases t with
      | nil => simp
      | cons c2 rest =>
        rw [noDoubleSlash] at hnds
        have := (Bool.and_eq_true_iff.mp hnds).1
        intro hc
        simp at hc
        rw [hc] at this
        simp [isSlash] at this
    have htlast : t.getLast? ≠ some '/' := by
      cases t with
      | nil => simp
      | cons c2 rest => rwa [List.getLast?_cons_cons] at hlast
    have htrim : trimSlashes ('/' :: t) = t := trimSlashes_cons_slash htne hthead htlast
    have htnds : noDoubleSlash t = true := nds_cons hnds
    have hallne : ∀ s ∈ splitSlash t, s ≠ [] :=
      splitSlash_all_ne_nil t.length t le_rfl htne hthead htlast htnds
    have hsegs : pathSegs ('/' :: t) = splitSlash t := by
      unfold pathSegs
      rw [htrim]
      exact List.filter_eq_self.mpr fun s hs => by simpa using hallne s hs
    rw [extractPathGroup, if_neg hg, hsegs]
    have hmapid : (splitSlash t).map substSeg = splitSlash t := by
      rw [List.map_congr_left fun s hs => ?_, List.map_id']
      show substSeg s = s
      unfold substSeg
      rw [hlit s (hsegs ▸ hs)]
    rw [hmapid, joinSegs_splitSlash]

/-- Witness for C4 (amended) at a concrete all-Literal canonical path. -/
theorem c4_amended_witness :
    extractPathGroup "/api/users/profile".data = "/api/users/profile".data :=
  c4_amended "/api/users/profile".data (by decide) (by decide)

theorem nds_cons_of_head_nonslash {c : Char} {l : List Char} (hc : isSlash c = false) :
    noDoubleSlash (c :: l) = noDoubleSlash l := by
  cases l with
  | nil => rfl
  | cons c2 rest =>
    rw [noDoubleSlash]
    simp [hc]

theorem nds_append_nonslash :
    ∀ (r : List Char) (x : List Char), (∀ c ∈ r, isSlash c = false) →
      noDoubleSlash (r ++ x) = noDoubleSlash x := by
  intro r
  induction r with
  | nil => intro x _; rfl
  | cons c cs ih =>
    intro x h
    rw [List.cons_append,
      nds_cons_of_head_nonslash (h c (List.mem_cons_self _ _)),
      ih x fun d hd => h d (List.mem_cons_of_mem c hd)]

theorem nds_join :
    ∀ (rs : List (List Char)), (∀ r ∈ rs, r ≠ []) →
      (∀ r ∈ rs, ∀ c ∈ r, isSlash c = false) →
      noDoubleSlash ('/' :: joinSegs rs) = true := by
  intro rs
  induction rs with
  | nil => intro _ _; decide
  | cons r rest ih =>
    intro hne hsl
    have hrne := hne r (List.mem_cons_self _ _)
    have hrsl := hsl r (List.mem_cons_self _ _)
    cases r with
    | nil => exact absurd rfl hrne
    | cons c cs =>
      have hc : isSlash c = false := hrsl c (List.mem_cons_self _ _)
      cases rest with
      | nil =>
        rw [joinSegs_single, noDoubleSlash]
        have h2 : noDoubleSlash (c :: cs) = true := by
          have h3 := nds_append_nonslash (c :: cs) [] hrsl
          rwa [List.append_nil] at h3
        simp [hc, h2]
      | cons x xs =>
        rw [joinSegs_cons₂, List.cons_append, noDoubleSlash]
        have h2 : noDoubleSlash (c :: (cs ++ '/' :: joinSegs (x :: xs))) = true := by
          rw [← List.cons_append, nds_append_nonslash (c :: cs) _ hrsl]
          exact ih (fun r' hr' => hne r' (List.mem_cons_of_mem _ hr'))
            (fun r' hr' => hsl r' (List.mem_cons_of_mem _ hr'))
        simp [hc, h2]

theorem mapped_segs_ne_nil (p : List Char) :
    ∀ r ∈ (pathSegs p).map substSeg, r ≠ [] := by
  intro r hr
  obtain ⟨s, hs, rfl⟩ := List.mem_map.mp hr
  exact substSeg_ne_nil (mem_pathSegs_ne_nil hs)

theorem mapped_segs_no_slash (p : List Char) :
    ∀ r ∈ (pathSegs p).map substSeg, ∀ c ∈ r, isSlash c = false := by
  intro r hr
  obtain ⟨s, hs, rfl⟩ := List.mem_map.mp hr
  exact substSeg_no_slash (mem_pathSegs_no_slash hs)

/-- C10. Output-shape invariant of `extractPathGroup` : the result is
empty exactly for the empty input; for non-empty input it starts with `'/'`,
contains no `"//"`, and has no trailing slash unless it is exactly `"/"`;
and any input made solely of slashes normalizes to `"/"`. -/
theorem c10_output_shape (p : List Char) :
    (extractPathGroup p = [] ↔ p = []) ∧
      (p ≠ [] →
        (extractPathGroup p).head? = some '/' ∧
          noDoubleSlash (extractPathGroup p) = true ∧
          (extractPathGroup p = ['/'] ∨ (extractPathGroup p).getLast? ≠ some '/')) ∧
      (p ≠ [] → (∀ c ∈ p, isSlash c = true) → extractPathGroup p = ['/']) := by
  by_cases hp : p = []
  · subst hp
    exact ⟨by rw [show extractPathGroup [] = [] from rfl],
      fun h => absurd rfl h, fun h _ => absurd rfl h⟩
  · by_cases hg : (p.isEmpty || p == ['/']) = true
    · have hpr : p = ['/'] := by
        rcases Bool.or_eq_true_iff.mp hg with h | h
        · exact absurd (by simpa using h) hp
        · simpa using h
      subst hpr
      refine ⟨by rw [show extractPathGroup ['/'] = ['/'] from rfl], ?_, ?_⟩
      · intro _
        exact ⟨rfl, rfl, Or.inl rfl⟩
      · intro _ _
        rfl
    · have hout : extractPathGroup p = '/' :: joinSegs ((pathSegs p).map substSeg) := by
        rw [extractPathGroup, if_neg hg]
      refine ⟨?_, ?_, ?_⟩
      · rw [hout]
        constructor
        · intro h; simp at h
        · intro h; exact absurd h hp
      · intro _
        refine ⟨by rw [hout]; rfl,
          by rw [hout]; exact nds_join _ (mapped_segs_ne_nil p) (mapped_segs_no_slash p), ?_⟩
        cases hrs : (pathSegs p).map substSeg with
        | nil => left; rw [hout, hrs]; rfl
        | cons r0 rest =>
          right
          obtain ⟨ys, c, hj, hc⟩ := joinSegs_concat ((pathSegs p).map substSeg)
            (by rw [hrs]; simp) (mapped_segs_ne_nil p) (mapped_segs_no_slash p)
          rw [hout, hj, ← List.cons_append, List.getLast?_append_cons]
          intro h
          simp at h
          rw [h] at hc
          simp [isSlash] at hc
      · intro _ hall
        have htrim : trimSlashes p = [] := by
          have h1 : p.dropWhile isSlash = [] :=
            List.dropWhile_eq_nil_iff.mpr fun x hx => by simpa using hall x hx
          unfold trimSlashes
          rw [h1]
          rfl
        have hsegs : pathSegs p = [] := by
          unfold pathSegs
          rw [htrim]
          rfl
        rw [hout, hsegs]
        rfl

/-- Witness for C10 at a concrete all-slash input. -/
theorem c10_output_shape_witness :
    extractPathGroup "///".data = ['/'] :=
  (c10_output_shape "///".data).2.2 (by decide) (by decide)

/-- C6. First match wins: a segment that satisfies rule `k` of rules 1–8
(and none of the earlier rules) and also satisfies the generic slug
criterion is classified by rule `k`'s kind — never as Slug. -/
theorem c6_first_match_wins (s : List Char) (k : Nat) (hk : k < 8)
    (h1 : ruleMatch k s = true)
    (h2 : ∀ j, j < k → ruleMatch j s = false)
    (hslug : slugCrit s = true) :
    identifyIDType s = some (ruleKind k) ∧ ruleKind k ≠ Kind.slug := by
  have hne : s.isEmpty = false := by
    unfold slugCrit slugCharsetMatch at hslug
    have h3 :=
      (Bool.and_eq_true_iff.mp (Bool.and_eq_true_iff.mp (Bool.and_eq_true_iff.mp hslug).1).1).1
    simpa using h3
  rw [idType_eq]
  unfold idBody
  interval_cases k
  · have e1 : uuidMatch s = true := h1
    rw [if_neg (by simp [hne]), if_pos e1]
    exact ⟨rfl, by decide⟩
  · have g0 : uuidMatch s = false := h2 0 (by omega)
    have e1 : numericMatch s = true := h1
    rw [if_neg (by simp [hne]), if_neg (by simp [g0]), if_pos e1]
    exact ⟨rfl, by decide⟩
  · have g0 : uuidMatch s = false := h2 0 (by omega)
    have g1 : numericMatch s = false := h2 1 (by omega)
    have e1 : isoMatch s = true := h1
    rw [if_neg (by simp [hne]), if_neg (by simp [g0]), if_neg (by simp [g1]), if_pos e1]
    exact ⟨rfl, by decide⟩
  · have g0 : uuidMatch s = false := h2 0 (by omega)
    have g1 : numericMatch s = false := h2 1 (by omega)
    have g2 : isoMatch s = false := h2 2 (by omega)
    have e1 : ulidMatch s = true := h1
    rw [if_neg (by simp [hne]), if_neg (by simp [g0]), if_neg (by simp [g1]),
      if_neg (by simp [g2]), if_pos e1]
    exact ⟨rfl, by decide⟩
  · have g0 : uuidMatch s = false := h2 0 (by omega)
    have g1 : numericMatch s = false := h2 1 (by omega)
    have g2 : isoMatch s = false := h2 2 (by omega)
    have g3 : ulidMatch s = false := h2 3 (by omega)
    have e1 : cuidMatch s = true := h1
    rw [if_neg (by simp [hne]), if_neg (by simp [g0]), if_neg (by simp [g1]),
      if_neg (by simp [g2]), if_neg (by simp [g3]), if_pos e1]
    exact ⟨rfl, by decide⟩
  · have g0 : uuidMatch s = false := h2 0 (by omega)
    have g1 : numericMatch s = false := h2 1 (by omega)
    have g2 : isoMatch s = false := h2 2 (by omega)
    have g3 : ulidMatch s = false := h2 3 (by omega)
    have g4 : cuidMatch s = false := h2 4 (by omega)
    have e1 : cuid2Match s = true := h1
    rw [if_neg (by simp [hne]), if_neg (by simp [g0]), if_neg (by simp [g1]),
      if_neg (by simp [g2]), if_neg (by simp [g3]), if_neg (by simp [g4]), if_pos e1]
    exact ⟨rfl, by decide⟩
  · have g0 : uuidMatch s = false := h2 0 (by omega)
    have g1 : numericMatch s = false := h2 1 (by omega)
    have g2 : isoMatch s = false := h2 2 (by omega)
    have g3 : ulidMatch s = false := h2 3 (by omega)
    have g4 : cuidMatch s = false := h2 4 (by omega)
    have g5 : cuid2Match s = false := h2 5 (by omega)
    have e1 : (s.length == 21 && nanoidMatch s) = true := h1
    rw [if_neg (by simp [hne]), if_neg (by simp [g0]), if_neg (by simp [g1]),
      if_neg (by simp [g2]), if_neg (by simp [g3]), if_neg (by simp [g4]),
      if_neg (by simp [g5]), if_pos e1]
    exact ⟨rfl, by decide⟩
  · have g0 : uuidMatch s = false := h2 0 (by omega)
    have g1 : numericMatch s = false := h2 1 (by omega)
    have g2 : isoMatch s = false := h2 2 (by omega)
    have g3 : ulidMatch s = false := h2 3 (by omega)
    have g4 : cuidMatch s = false := h2 4 (by omega)
    have g5 : cuid2Match s = false := h2 5 (by omega)
    have g6 : (s.length == 21 && nanoidMatch s) = false := h2 6 (by omega)
    have e1 : fileMatch s = true := h1
    rw [if_neg (by simp [hne]), if_neg (by simp [g0]), if_neg (by simp [g1]),
      if_neg (by simp [g2]), if_neg (by simp [g3]), if_neg (by simp [g4]),
      if_neg (by simp [g5]), if_neg (by rw [g6]; simp), if_pos e1]
    exact ⟨rfl, by decide⟩

/-- Witness for C6: a UUID whose characters also satisfy the slug criterion
(digits plus dashes) is classified UUID, not Slug. -/
theorem c6_first_match_wins_witness :
    identifyIDType "550e8400-e29b-41d4-a716-446655440000".data = some (ruleKind 0) ∧
      ruleKind 0 ≠ Kind.slug :=
  c6_first_match_wins "550e8400-e29b-41d4-a716-446655440000".data 0 (by decide)
    (by decide) (by decide) (by decide)

theorem alnum_not_newline {c : Char} (h : isAlnumC c = true) : (c.toNat == 10) = false := by
  simp only [isAlnumC, isDigitC, isUpperC, isLowerC, Bool.or_eq_true,
    Bool.and_eq_true, decide_eq_true_eq] at h
  simp only [beq_eq_false_iff_ne, ne_eq]
  omega

/-- Lifting a File match through a colon prefix: if the suffix after an
alphanumeric colon prefix matches the file pattern, so does the whole
segment. -/
theorem fileMatch_lift {p t : List Char} (hp : prefixMatchB p = true)
    (ht : fileMatch t = true) : fileMatch (p ++ ':' :: t) = true := by
  unfold fileMatch at ht ⊢
  obtain ⟨i, hmem, hP⟩ := List.any_eq_true.mp ht
  have hi : i < t.length := List.mem_range.mp hmem
  simp only [Bool.and_eq_true] at hP
  obtain ⟨⟨⟨⟨⟨hdot, h1i⟩, hpre⟩, hbne⟩, hblen⟩, hbw⟩ := hP
  have hpall : p.all isAlnumC = true := (Bool.and_eq_true_iff.mp hp).2
  refine List.any_eq_true.mpr ⟨p.length + 1 + i, List.mem_range.mpr (by simp; omega), ?_⟩
  have hget : (p ++ ':' :: t).get? (p.length + 1 + i) = t.get? i := by
    rw [List.get?_append_right (by omega)]
    have e : p.length + 1 + i - p.length = i + 1 := by omega
    rw [e, List.get?_cons_succ]
  have htake : (p ++ ':' :: t).take (p.length + 1 + i) = p ++ ':' :: t.take i := by
    have e : p.length + 1 + i = p.length + (i + 1) := by omega
    rw [e, List.take_append, List.take_cons_succ]
  have hdrop : (p ++ ':' :: t).drop (p.length + 1 + i + 1) = t.drop (i + 1) := by
    have e : p.length + 1 + i + 1 = p.length + (i + 1 + 1) := by omega
    rw [e, List.drop_append, List.drop_succ_cons]
  simp only [Bool.and_eq_true]
  refine ⟨⟨⟨⟨⟨by rw [hget]; exact hdot, by simp only [decide_eq_true_eq]; omega⟩, ?_⟩,
    by rw [hdrop]; exact hbne⟩, by rw [hdrop]; exact hblen⟩, by rw [hdrop]; exact hbw⟩
  rw [htake]
  simp only [List.all_append, List.all_cons, Bool.and_eq_true]
  refine ⟨List.all_eq_true.mpr fun c hc => ?_, by decide, hpre⟩
  simp only [Bool.not_eq_true']
  exact alnum_not_newline (List.all_eq_true.mp hpall c hc)

/-- A segment matching one of the six underscore-promotable patterns is
classified by rules 1–7, never as File (and never kept literal). -/
theorem guard6_not_file {t : List Char}
    (hg : (uuidMatch t || isoMatch t || ulidMatch t || cuidMatch t ||
      cuid2Match t || (t.length == 21 && nanoidMatch t)) = true) :
    identifyIDType t ≠ some Kind.file := by
  rw [idType_eq]
  unfold idBody
  by_cases h1 : t.isEmpty = true
  · have ht : t = [] := by
      cases t with
      | nil => rfl
      | cons a b => simp at h1
    subst ht
    exact absurd hg (by decide)
  · rw [if_neg h1]
    by_cases h2 : uuidMatch t = true
    · rw [if_pos h2]; simp
    · rw [if_neg h2]
      by_cases h3 : numericMatch t = true
      · rw [if_pos h3]; simp
      · rw [if_neg h3]
        by_cases h4 : isoMatch t = true
        · rw [if_pos h4]; simp
        · rw [if_neg h4]
          by_cases h5 : ulidMatch t = true
          · rw [if_pos h5]; simp
          · rw [if_neg h5]
            by_cases h6 : cuidMatch t = true
            · rw [if_pos h6]; simp
            · rw [if_neg h6]
              by_cases h7 : cuid2Match t = true
              · rw [if_pos h7]; simp
              · rw [if_neg h7]
                by_cases h8 : (t.length == 21 && nanoidMatch t) = true
                · rw [if_pos h8]; simp
                · exfalso
                  rw [Bool.not_eq_true] at h2 h4 h5 h6 h7 h8
                  rw [h2, h4, h5, h6, h7, h8] at hg
                  simp at hg

/-- Whenever the classifier answers File, the segment matches the file
pattern (the File answer can only arise from rule 8, possibly through a
chain of colon-prefix strips, each of which preserves the pattern). -/
theorem idType_file_fileMatch :
    ∀ (n : Nat) (s : List Char), s.length ≤ n → identifyIDType s = some Kind.file →
      fileMatch s = true := by
  intro n
  induction n with
  | zero =>
    intro s hlen h
    have hs : s = [] := List.length_eq_zero.mp (Nat.le_zero.mp hlen)
    subst hs
    exact absurd h (by decide)
  | succ n ih =>
    intro s hlen h
    rw [idType_eq] at h
    unfold idBody at h
    split_ifs at h with hA hB hC hD hE hF hG hH hI <;> try simp at h
    · exact hI
    · cases hc : colonStep identifyIDType s with
      | some k =>
        rw [hc] at h
        simp only [Option.some.injEq] at h
        subst h
        unfold colonStep at hc
        cases hb : breakAt ':' s with
        | none => rw [hb] at hc; simp at hc
        | some pt =>
          obtain ⟨p, t⟩ := pt
          rw [hb] at hc
          simp only at hc
          by_cases hguard : (!p.isEmpty && prefixMatchB p && !t.isEmpty) = true
          · rw [if_pos hguard] at hc
            obtain ⟨hseq, _⟩ := breakAt_eq_some hb
            have htlen : t.length ≤ n := by
              have : s.length = p.length + 1 + t.length := by rw [hseq]; simp; omega
              omega
            have hft : fileMatch t = true := ih t htlen hc
            have hpre : prefixMatchB p = true :=
              (Bool.and_eq_true_iff.mp (Bool.and_eq_true_iff.mp hguard).1).2
            rw [hseq]
            exact fileMatch_lift hpre hft
          · rw [if_neg hguard] at hc
            simp at hc
      | none =>
        rw [hc] at h
        simp only at h
        cases hu : underscoreStep identifyIDType s with
        | some k =>
          rw [hu] at h
          simp only [Option.some.injEq] at h
          subst h
          exfalso
          unfold underscoreStep at hu
          cases hb : breakAt '_' s with
          | none => rw [hb] at hu; simp at hu
          | some pt =>
            obtain ⟨p, t⟩ := pt
            rw [hb] at hu
            simp only at hu
            by_cases hguard : (!p.isEmpty && prefixMatchB p && !t.isEmpty) = true
            · rw [if_pos hguard] at hu
              by_cases hg6 : (uuidMatch t || isoMatch t || ulidMatch t || cuidMatch t ||
                  cuid2Match t || (t.length == 21 && nanoidMatch t)) = true
              · rw [if_pos hg6] at hu
                exact guard6_not_file hg6 hu
              · rw [if_neg hg6] at hu
                by_cases hnum : (numericMatch t && decide (3 ≤ t.length)) = true
                · rw [if_pos hnum] at hu
                  simp at hu
                · rw [if_neg hnum] at hu
                  simp at hu
            · rw [if_neg hguard] at hu
              simp at hu
        | none =>
          rw [hu] at h
          simp only at h
          unfold slugStep at h
          by_cases hsl : slugCrit s = true
          · rw [if_pos hsl] at h
            simp at h
          · rw [if_neg hsl] at h
            simp at h

/-- C5 is false as stated: the segment `".css"` is not matched by rules
1–7, contains a `'.'` whose following text `"css"` is 1–15 word characters
(the claim's criterion holds), yet the code classifies it Literal, not File
— `filePattern` requires at least one character before the dot. -/
theorem c5_counterexample :
    (∀ j, j < 7 → ruleMatch j ".css".data = false) ∧
      claimFileDot ".css".data = true ∧
      identifyIDType ".css".data = none := by
  exact ⟨by decide, by decide, by decide⟩

/-- C5 (amended). For every segment not matched by rules 1–7, classify
returns File exactly when the segment contains a `'.'` with at least one
character before it, none of the characters before the dot a newline, and
the text after that dot is 1–15 word characters (`fileMatch`, the faithful
reading of `^.+\.\w{1,15}$`). -/
theorem c5_amended (s : List Char) (h17 : ∀ j, j < 7 → ruleMatch j s = false) :
    (identifyIDType s = some Kind.file ↔ fileMatch s = true) := by
  constructor
  · exact fun h => idType_file_fileMatch s.length s le_rfl h
  · intro hf
    have hne : s.isEmpty = false := by
      cases s with
      | nil => exact absurd hf (by decide)
      | cons a b => rfl
    have g0 : uuidMatch s = false := h17 0 (by omega)
    have g1 : numericMatch s = false := h17 1 (by omega)
    have g2 : isoMatch s = false := h17 2 (by omega)
    have g3 : ulidMatch s = false := h17 3 (by omega)
    have g4 : cuidMatch s = false := h17 4 (by omega)
    have g5 : cuid2Match s = false := h17 5 (by omega)
    have g6 : (s.length == 21 && nanoidMatch s) = false := h17 6 (by omega)
    rw [idType_eq]
    unfold idBody
    rw [if_neg (by simp [hne]), if_neg (by simp [g0]), if_neg (by simp [g1]),
      if_neg (by simp [g2]), if_neg (by simp [g3]), if_neg (by simp [g4]),
      if_neg (by simp [g5]), if_neg (by rw [g6]; simp), if_pos hf]

/-- Witness for C5 (amended) on a concrete file segment. -/
theorem c5_amended_witness :
    identifyIDType "index.html".data = some Kind.file ↔
      fileMatch "index.html".data = true :=
  c5_amended "index.html".data (by decide)

theorem all_eq_false_of_mem {f : Char → Bool} {c : Char} {l : List Char}
    (hc : c ∈ l) (hf : f c = false) : l.all f = false := by
  by_contra h
  rw [Bool.not_eq_false, List.all_eq_true] at h
  exact absurd (h c hc) (by simp [hf])

theorem colon_not_numeric {t : List Char} (hc : ':' ∈ t) : numericMatch t = false := by
  unfold numericMatch
  rw [all_eq_false_of_mem hc (by decide)]
  simp

theorem colon_not_ulid {t : List Char} (hc : ':' ∈ t) : ulidMatch t = false := by
  unfold ulidMatch
  rw [all_eq_false_of_mem hc (by decide)]
  simp

theorem colon_not_nanoid {t : List Char} (hc : ':' ∈ t) : nanoidMatch t = false := by
  unfold nanoidMatch
  rw [all_eq_false_of_mem hc (by decide)]
  simp

theorem colon_not_cuid {t : List Char} (hc : ':' ∈ t) : cuidMatch t = false := by
  cases t with
  | nil => rfl
  | cons c rest =>
    show (c.toNat == 99 && rest.length == 24 && rest.all isLowerAlnumC) = false
    rcases List.mem_cons.mp hc with h | h
    · rw [← h]
      simp
    · rw [all_eq_false_of_mem h (by decide)]
      simp

theorem colon_not_cuid2 {t : List Char} (hc : ':' ∈ t) : cuid2Match t = false := by
  cases t with
  | nil => rfl
  | cons c rest =>
    show (isLowerC c && rest.length == 23 && rest.all isLowerAlnumC) = false
    rcases List.mem_cons.mp hc with h | h
    · rw [← h]
      simp [isLowerC]
    · rw [all_eq_false_of_mem h (by decide)]
      simp

theorem colon_not_uuid {t : List Char} (hc : ':' ∈ t) : uuidMatch t = false := by
  by_contra h
  rw [Bool.not_eq_false] at h
  unfold uuidMatch at h
  obtain ⟨hlen, hall⟩ := Bool.and_eq_true_iff.mp h
  obtain ⟨n, hn⟩ := List.mem_iff_get.mp hc
  have hlen36 : t.length = 36 := by simpa using hlen
  have hn36 : (n : Nat) < 36 := by
    have := n.isLt
    omega
  have hP := List.all_eq_true.mp hall (n : Nat) (List.mem_range.mpr hn36)
  rw [List.get?_eq_get n.isLt] at hP
  simp only [Fin.eta, hn] at hP
  split at hP
  · exact absurd hP (by decide)
  · exact absurd hP (by decide)

/-- C7 is false as stated: the segment `"evt_2026-02-26T00:01:55"`
contains `':'` at position 17 > 0, yet its classification (ISODate) is
determined by the underscore-splitting step — the variant that skips
underscore extraction for colon-bearing segments returns Literal instead. -/
theorem c7_counterexample :
    hasColonGT0 "evt_2026-02-26T00:01:55".data = true ∧
      identifyIDType "evt_2026-02-26T00:01:55".data = some Kind.isoDate ∧
      idTypeNoUnderscore "evt_2026-02-26T00:01:55".data = none := by
  exact ⟨by decide, by decide, by decide⟩

/-- C7 (amended). The underscore step runs even for segments containing
`':'` at a position > 0, but for such a segment it can only promote through
an ISO-datetime suffix (the only promotable pattern whose charset admits
`':'`): whenever the underscore step determines a kind for a colon-bearing
segment, that kind is ISODate. -/
theorem c7_amended (s : List Char) (k : Kind)
    (hcol : hasColonGT0 s = true)
    (hu : underscoreStep identifyIDType s = some k) :
    k = Kind.isoDate := by
  unfold underscoreStep at hu
  cases hb : breakAt '_' s with
  | none => rw [hb] at hu; simp at hu
  | some pt =>
    obtain ⟨p, t⟩ := pt
    rw [hb] at hu
    simp only at hu
    by_cases hg : (!p.isEmpty && prefixMatchB p && !t.isEmpty) = true
    · rw [if_pos hg] at hu
      have hcs : ':' ∈ s := by
        unfold hasColonGT0 at hcol
        cases hb2 : breakAt ':' s with
        | none => rw [hb2] at hcol; simp at hcol
        | some pt2 =>
          obtain ⟨p2, t2⟩ := pt2
          rw [(breakAt_eq_some hb2).1]
          simp
      have hseq := (breakAt_eq_some hb).1
      have hpall : p.all isAlnumC = true := by
        have hpre : prefixMatchB p = true :=
          (Bool.and_eq_true_iff.mp (Bool.and_eq_true_iff.mp hg).1).2
        exact (Bool.and_eq_true_iff.mp hpre).2
      have hct : ':' ∈ t := by
        rw [hseq] at hcs
        rcases List.mem_append.mp hcs with h | h
        · exact absurd (List.all_eq_true.mp hpall ':' h) (by decide)
        · rcases List.mem_cons.mp h with h' | h'
          · exact absurd h' (by decide)
          · exact h'
      by_cases hg6 : (uuidMatch t || isoMatch t || ulidMatch t || cuidMatch t ||
          cuid2Match t || (t.length == 21 && nanoidMatch t)) = true
      · rw [if_pos hg6] at hu
        have hiso : isoMatch t = true := by
          rw [colon_not_uuid hct, colon_not_ulid hct, colon_not_cuid hct,
            colon_not_cuid2 hct, colon_not_nanoid hct] at hg6
          simpa using hg6
        have htne : t.isEmpty = false := by
          cases t with
          | nil => simp at hct
          | cons a b => rfl
        rw [idType_eq] at hu
        unfold idBody at hu
        rw [if_neg (by simp [htne]), if_neg (by simp [colon_not_uuid hct]),
          if_neg (by simp [colon_not_numeric hct]), if_pos hiso] at hu
        simp only [Option.some.injEq] at hu
        exact hu.symm
      · rw [if_neg hg6] at hu
        by_cases hnum : (numericMatch t && decide (3 ≤ t.length)) = true
        · rw [colon_not_numeric hct] at hnum
          simp at hnum
        · rw [if_neg hnum] at hu
          simp at hu
    · rw [if_neg hg] at hu
      simp at hu

/-- Witness for C7 (amended) at the colon-bearing underscore segment whose
suffix is an ISO datetime. -/
theorem c7_amended_witness : Kind.isoDate = Kind.isoDate :=
  c7_amended "evt_2026-02-26T00:01:55".data Kind.isoDate (by decide) (by decide)

/-- A segment passing the full slug criterion is never kept literal: some
rule of the new classifier always fires (at worst rule 10 itself). -/
theorem slugCrit_isSome {s : List Char} (h : slugCrit s = true) :
    (identifyIDType s).isSome = true := by
  have hne : s.isEmpty = false := by
    unfold slugCrit slugCharsetMatch at h
    have h3 :=
      (Bool.and_eq_true_iff.mp (Bool.and_eq_true_iff.mp (Bool.and_eq_true_iff.mp h).1).1).1
    simpa using h3
  rw [idType_eq]
  unfold idBody
  rw [if_neg (by simp [hne])]
  split_ifs <;> try rfl
  cases hc : colonStep identifyIDType s with
  | some k => simp
  | none =>
    simp only
    cases hu : underscoreStep identifyIDType s with
    | some k => simp
    | none =>
      simp only
      unfold slugStep
      rw [if_pos h]
      rfl

theorem numeric_not_uuid {s : List Char} (h : numericMatch s = true) :
    uuidMatch s = false := by
  by_contra hu
  rw [Bool.not_eq_false] at hu
  unfold uuidMatch at hu
  obtain ⟨hlen, hall⟩ := Bool.and_eq_true_iff.mp hu
  have hlen36 : s.length = 36 := by simpa using hlen
  have h8 : 8 < s.length := by omega
  have hP := List.all_eq_true.mp hall 8 (List.mem_range.mpr (by omega))
  rw [List.get?_eq_get h8] at hP
  simp only at hP
  rw [if_pos (by simp)] at hP
  have hmem : s.get ⟨8, h8⟩ ∈ s := s.get_mem 8 h8
  have hd := List.all_eq_true.mp (Bool.and_eq_true_iff.mp h).2 _ hmem
  unfold isDigitC at hd
  simp only [beq_iff_eq] at hP
  simp only [Bool.and_eq_true, decide_eq_true_eq] at hd
  omega

/-- Segment-level agreement of the two plugins, given the C9 hypothesis. -/
theorem c9_seg (s : List Char) (h : c9SegHyp s) :
    (identifyIDType s = none ∧ legacySubstSeg s = s ∧ substSeg s = s) ∨
      ∃ k, identifyIDType s = some k ∧ legacySubstSeg s = ['*'] ∧
        substSeg s = kindLabel k := by
  by_cases hu : uuidMatch s = true
  · right
    have hne : s.isEmpty = false := by
      cases s with
      | nil => exact absurd hu (by decide)
      | cons a b => rfl
    have hid : identifyIDType s = some .uuid := by
      rw [idType_eq]
      unfold idBody
      rw [if_neg (by simp [hne]), if_pos hu]
    exact ⟨.uuid, hid, by unfold legacySubstSeg; rw [if_pos hu],
      by unfold substSeg; rw [hid]⟩
  · by_cases hn : numericMatch s = true
    · right
      have hne : s.isEmpty = false := by
        cases s with
        | nil => exact absurd hn (by decide)
        | cons a b => rfl
      have hid : identifyIDType s = some .numericId := by
        rw [idType_eq]
        unfold idBody
        rw [if_neg (by simp [hne]), if_neg hu, if_pos hn]
      exact ⟨.numericId, hid, by unfold legacySubstSeg; rw [if_neg hu, if_pos hn],
        by unfold substSeg; rw [hid]⟩
    · by_cases hsl : slugCrit s = true
      · right
        obtain ⟨k, hk⟩ := Option.isSome_iff_exists.mp (slugCrit_isSome hsl)
        exact ⟨k, hk, by unfold legacySubstSeg; rw [if_neg hu, if_neg hn, if_pos hsl],
          by unfold substSeg; rw [hk]⟩
      · left
        have hid : identifyIDType s = none := by
          rcases h with h | h | h | h
          · exact absurd h hu
          · exact absurd h hn
          · exact absurd h hsl
          · exact h
        exact ⟨hid, by unfold legacySubstSeg; rw [if_neg hu, if_neg hn, if_neg hsl],
          by unfold substSeg; rw [hid]⟩

/-- C9. Legacy/new agreement up to label renaming: when every segment is
directly a UUID, a numeric ID, a digit-and-separator slug, or kept literal
(not classified through rules 3–9 or prefix extraction), the legacy
`extractPathGroup` produces the same template as the newer one with `"*"`
exactly where the newer variant puts a kind label and identical literal
segments. -/
theorem c9_legacy_agreement (p : List Char)
    (h : ∀ seg ∈ pathSegs p, c9SegHyp seg) :
    legacyExtractPathGroup p =
        (if p.isEmpty || p == ['/'] then p
         else '/' :: joinSegs ((pathSegs p).map
           fun s => if (identifyIDType s).isSome then ['*'] else s)) ∧
      ∀ seg ∈ pathSegs p,
        (identifyIDType seg = none ∧ legacySubstSeg seg = seg ∧ substSeg seg = seg) ∨
          ∃ k, identifyIDType seg = some k ∧ legacySubstSeg seg = ['*'] ∧
            substSeg seg = kindLabel k := by
  refine ⟨?_, fun seg hs => c9_seg seg (h seg hs)⟩
  unfold legacyExtractPathGroup
  by_cases hg : (p.isEmpty || p == ['/']) = true
  · rw [if_pos hg, if_pos hg]
  · rw [if_neg hg, if_neg hg]
    have hsub : ∀ seg ∈ pathSegs p,
        legacySubstSeg seg = (if (identifyIDType seg).isSome then ['*'] else seg) := by
      intro seg hs
      rcases c9_seg seg (h seg hs) with ⟨hid, hleg, _⟩ | ⟨k, hid, hleg, _⟩
      · rw [hleg, if_neg (by rw [hid]; simp)]
      · rw [hleg, if_pos (by rw [hid]; rfl)]
    rw [List.map_congr_left hsub]

/-- Witness for C9 on the spec's UUID scenario: the legacy plugin stars the
UUID segment. -/
theorem c9_legacy_agreement_witness :
    legacyExtractPathGroup
        "/api/v1/users/550e8400-e29b-41d4-a716-446655440000/profile".data =
      "/api/v1/users/*/profile".data :=
  ((c9_legacy_agreement
      "/api/v1/users/550e8400-e29b-41d4-a716-446655440000/profile".data
      (by decide)).1).trans (by decide)

/-! ## Sanity examples -/

example : identifyIDType "550e8400-e29b-41d4-a716-446655440000".data = some .uuid := by
  decide

example : identifyIDType "42".data = some .numericId := by decide

example : identifyIDType "2026-02-26T00:01:55.123Z".data = some .isoDate := by decide

example : identifyIDType "V1StGXR8_Z5jdHi6B-myT".data = some .nanoid := by decide

example : identifyIDType "usr:V1StGXR8_Z5jdHi6B-myT".data = some .nanoid := by decide

example : identifyIDType "style.css".data = some .file := by decide

example : identifyIDType "not_a_prefix_123".data = some .slug := by decide

example : identifyIDType "profile".data = none := by decide

example :
    extractPathGroup "/api/v1/courts/42/bookings".data =
      "/api/v1/courts/numeric_id/bookings".data := by decide

example :
    legacyExtractPathGroup "/api/v1/courts/42/bookings".data =
      "/api/v1/courts/*/bookings".data := by decide

end PathGroup
